import Mathlib

/-!
Verification of the candidate-filtering engine of `main.py` (HangMan).

The Python source is shallowly embedded: words are lists of characters,
`collections.Counter` is modelled by its keys in first-insertion order
together with a count function, and code that can raise a Python exception
returns `Except PyErr`.  The interactive loop `play_hangman` forces the
human's reply to equal the true index list of the guessed letter inside the
secret word (`get_input(..., choices = [expected_indices])`), so the loop is
deterministic given the secret word; `game_step`/`run_game` embed one turn
and the fuelled loop.
-/

set_option maxRecDepth 4000

/-- Python strings are sequences of characters. -/
abbrev Word := List Char

instance {ε α : Type _} [DecidableEq ε] [DecidableEq α] : DecidableEq (Except ε α) := fun x y =>
  match x, y with
  | Except.ok a, Except.ok b =>
    if h : a = b then isTrue (by rw [h]) else isFalse (fun hh => by cases hh; exact h rfl)
  | Except.error a, Except.error b =>
    if h : a = b then isTrue (by rw [h]) else isFalse (fun hh => by cases hh; exact h rfl)
  | Except.ok _, Except.error _ => isFalse (fun hh => by cases hh)
  | Except.error _, Except.ok _ => isFalse (fun hh => by cases hh)

/-- Python exceptions that the embedded fragment can raise.
`IndexError` is what sequence indexing (`seq[i]`) raises when it misses.
`ExhaustedError` is modelled from the spec: the spec's error taxonomy names
a distinct, explicitly guarded error for "no unrevealed letter remains";
no line of `main.py` raises or defines it. -/
inductive PyErr where
  | IndexError : PyErr
  | ExhaustedError : PyErr
  deriving DecidableEq

/-- The seven stages of gallows art (`HANGMEN` list in `main.py`); only its
length matters to the logic: the maximum number of wrong guesses is
`HANGMEN.length - 1 = 6`. -/
def HANGMEN : List String :=
  [ "\n  +---+\n  |   |\n      |\n      |\n      |\n      |\n=========",
    "\n  +---+\n  |   |\n  O   |\n      |\n      |\n      |\n=========",
    "\n  +---+\n  |   |\n  O   |\n  |   |\n      |\n      |\n=========",
    "\n  +---+\n  |   |\n  O   |\n /|   |\n      |\n      |\n=========",
    "\n  +---+\n  |   |\n  O   |\n /|\\  |\n      |\n      |\n=========",
    "\n  +---+\n  |   |\n  O   |\n /|\\  |\n /    |\n      |\n=========",
    "\n  +---+\n  |   |\n  O   |\n /|\\  |\n / \\  |\n      |\n=========" ]

/-- Characters of a list in order of first occurrence; this is the key order
of a Python dict/Counter built by scanning the list left to right. -/
def firstSeen : List Char → List Char
  | [] => []
  | c :: cs => c :: (firstSeen cs).filter (fun d => decide (d ≠ c))

/-- First element of maximal measure in a list: the head of a stable
descending sort by `cnt`, i.e. what `Counter.most_common()[0]` selects
(later elements replace the current best only on a strictly larger count). -/
def firstMaxBy (cnt : Char → Nat) : List Char → Option Char
  | [] => none
  | c :: cs =>
    match firstMaxBy cnt cs with
    | none => some c
    | some d => if cnt c < cnt d then some d else some c

/-- Model of `collections.Counter`: insertion-ordered keys plus counts. -/
structure Counter where
  keys : List Char
  count : Char → Nat

/-- Model of `Counter.pop(c, None)`: the key and its count are removed. -/
def Counter.pop (cnt : Counter) (c : Char) : Counter :=
  { keys := cnt.keys.filter (fun d => decide (d ≠ c)),
    count := fun d => if d = c then 0 else cnt.count d }

/-- Embedding of `get_char_frequency(words)`:
`Counter(letter for w in words for letter in w)` — keys appear in order of
first occurrence scanning word by word, character by character, and each
key's count is its total number of occurrences. -/
def get_char_frequency (words : List Word) : Counter :=
  { keys := firstSeen words.flatten,
    count := fun c => words.flatten.count c }

/-- Embedding of `most_common_letter(words, masked_word)`: build the
frequency counter, `pop` every character of the masked word, and take
`counts.most_common()[0][0]`.  On an empty counter `most_common()` returns
`[]` and the `[0]` indexing raises `IndexError`. -/
def most_common_letter (words : List Word) (masked_word : List Char) :
    Except PyErr Char :=
  let counts := masked_word.foldl Counter.pop (get_char_frequency words)
  match firstMaxBy counts.count counts.keys with
  | some c => Except.ok c
  | none => Except.error PyErr.IndexError

/-- Embedding of `filter_by_word_size(words, size)`. -/
def filter_by_word_size (words : List Word) (size : Nat) : List Word :=
  words.filter (fun w => decide (w.length = size))

/-- Embedding of `filter_by_excluded_letter(words, letter)`:
`[w for w in words if letter not in w]`. -/
def filter_by_excluded_letter (words : List Word) (letter : Char) : List Word :=
  words.filter (fun w => decide (letter ∉ w))

/-- Embedding of the generator `all(w[i] == letter for i in indices)` inside
`filter_by_known_letter`, including Python's short-circuiting and the
`IndexError` that `w[i]` raises when `i` is out of range (not reached when an
earlier index already compared unequal). -/
def checkWord (letter : Char) (indices : List Nat) (w : Word) :
    Except PyErr Bool :=
  match indices with
  | [] => Except.ok true
  | i :: rest =>
    match w.get? i with
    | none => Except.error PyErr.IndexError
    | some ch => if ch = letter then checkWord letter rest w else Except.ok false

/-- Embedding of `filter_by_known_letter(words, letter, indices)`:
`[w for w in words if all(w[i] == letter for i in indices)]`; an
`IndexError` raised for any word aborts the whole comprehension. -/
def filter_by_known_letter (words : List Word) (letter : Char)
    (indices : List Nat) : Except PyErr (List Word) :=
  match words with
  | [] => Except.ok []
  | w :: ws =>
    match checkWord letter indices w with
    | Except.error e => Except.error e
    | Except.ok b =>
      match filter_by_known_letter ws letter indices with
      | Except.error e => Except.error e
      | Except.ok rest => Except.ok (if b then w :: rest else rest)

/-- Embedding of `[i for i, c in enumerate(word) if c == letter]` in
`play_hangman`: the true positions of `letter` inside the secret word. -/
def expected_indices (word : Word) (letter : Char) : List Nat :=
  (List.range word.length).filter (fun i => decide (word.get? i = some letter))

/-- The mutable state the `while` loop of `play_hangman` owns. -/
structure GameState where
  words : List Word
  masked_word : List Char
  wrong_guesses : Nat
  deriving DecidableEq

/-- Value of the `game_over` variable after the terminal-condition check:
still falsy (`None`), the `'GAME OVER!'` message, or the
`'I found your word!'` message. -/
inductive Outcome where
  | Playing : Outcome
  | Failed : Outcome
  | Solved : Outcome
  deriving DecidableEq

/-- One iteration of the loop body of `play_hangman` up to (excluding) the
terminal check: guess the most common letter, obtain the forced-truthful
index list for the secret `word`, and filter.  The `indices ≠ []` test is
Python's truthiness test `if indices:`; on a non-empty reply the positions
are revealed in the masked word (`masked_word[i] = letter` — every such `i`
is `< word.length` by construction of `expected_indices`, so `List.set`
agrees with Python's in-range assignment on well-formed states). -/
def game_step (word : Word) (st : GameState) : Except PyErr GameState :=
  match most_common_letter st.words st.masked_word with
  | Except.error e => Except.error e
  | Except.ok letter =>
    let indices := expected_indices word letter
    if indices ≠ [] then
      match filter_by_known_letter st.words letter indices with
      | Except.error e => Except.error e
      | Except.ok ws =>
        Except.ok { words := ws,
                    masked_word := indices.foldl (fun m i => m.set i letter) st.masked_word,
                    wrong_guesses := st.wrong_guesses }
    else
      Except.ok { words := filter_by_excluded_letter st.words letter,
                  masked_word := st.masked_word,
                  wrong_guesses := st.wrong_guesses + 1 }

/-- The terminal-condition check at the end of each loop iteration:
`if wrong_guesses >= len(HANGMEN) - 1: ... elif len(words) == 1: ...` —
the failure test is written first, the solved test second. -/
def check_game_over (st : GameState) : Outcome :=
  if HANGMEN.length - 1 ≤ st.wrong_guesses then Outcome.Failed
  else if st.words.length = 1 then Outcome.Solved
  else Outcome.Playing

/-- The fuelled `while not game_over` loop of `play_hangman`: run one body
iteration, then the terminal check; on `Solved` the masked word is
overwritten with `words[0]`.  `Except.ok none` means the fuel ran out with
the game still going. -/
def run_game (word : Word) : Nat → GameState → Except PyErr (Option (Outcome × GameState))
  | 0, _ => Except.ok none
  | fuel + 1, st =>
    match game_step word st with
    | Except.error e => Except.error e
    | Except.ok st' =>
      match check_game_over st' with
      | Outcome.Playing => run_game word fuel st'
      | Outcome.Failed => Except.ok (some (Outcome.Failed, st'))
      | Outcome.Solved =>
        Except.ok (some (Outcome.Solved, { st' with masked_word := st'.words.headD [] }))

/-- The state `play_hangman` enters the loop with: candidates are the
vocabulary words of the secret word's length, the masked word is
`['_'] * size`, and no wrong guess was made. -/
def init_state (word : Word) (vocab : List Word) : GameState :=
  { words := filter_by_word_size vocab word.length,
    masked_word := List.replicate word.length '_',
    wrong_guesses := 0 }

/-- The alphabet within the spec's scope: simple lowercase letters. -/
def LOWERCASE : List Char :=
  ['a','b','c','d','e','f','g','h','i','j','k','l','m',
   'n','o','p','q','r','s','t','u','v','w','x','y','z']

/-- The masked word determined by a set `S` of correctly guessed letters:
positions holding a letter of `S` show it, the rest show `'_'`. -/
def revealed (word : Word) (S : List Char) : List Char :=
  word.map (fun c => if c ∈ S then c else '_')

/-- Keys surviving the `pop` loop of `most_common_letter`: characters of the
candidate words in first-occurrence order, minus those of the masked word. -/
def unrevealed_keys (words : List Word) (masked_word : List Char) : List Char :=
  (firstSeen words.flatten).filter (fun c => decide (c ∉ masked_word))

/-! ## Characterisation of the frequency analyser -/

theorem mem_firstSeen : ∀ (l : List Char) (c : Char), c ∈ firstSeen l ↔ c ∈ l := by
  intro l c
  induction l with
  | nil => simp [firstSeen]
  | cons x xs ih =>
    simp only [firstSeen, List.mem_cons, List.mem_filter, decide_eq_true_eq]
    constructor
    · rintro (rfl | ⟨h1, _⟩)
      · exact Or.inl rfl
      · exact Or.inr (ih.mp h1)
    · rintro (rfl | h)
      · exact Or.inl rfl
      · by_cases hx : c = x
        · exact Or.inl hx
        · exact Or.inr ⟨ih.mpr h, hx⟩

theorem nodup_firstSeen : ∀ (l : List Char), (firstSeen l).Nodup := by
  intro l
  induction l with
  | nil => simp [firstSeen]
  | cons x xs ih =>
    simp only [firstSeen]
    rw [List.nodup_cons]
    constructor
    · intro hmem
      rw [List.mem_filter, decide_eq_true_eq] at hmem
      exact hmem.2 rfl
    · exact List.Nodup.filter _ ih

theorem pairwise_indexOf_firstSeen : ∀ (l : List Char),
    (firstSeen l).Pairwise (fun a b => l.indexOf a < l.indexOf b) := by
  intro l
  induction l with
  | nil => simp [firstSeen]
  | cons x xs ih =>
    simp only [firstSeen]
    rw [List.pairwise_cons]
    constructor
    · intro b hb
      rw [List.mem_filter, decide_eq_true_eq] at hb
      rw [List.indexOf_cons_self, List.indexOf_cons_ne _ (Ne.symm hb.2)]
      exact Nat.succ_pos _
    · refine List.Pairwise.imp_of_mem ?_
        (List.Pairwise.sublist (List.filter_sublist _) ih)
      intro a b ha hb hab
      rw [List.mem_filter, decide_eq_true_eq] at ha hb
      rw [List.indexOf_cons_ne _ (Ne.symm ha.2), List.indexOf_cons_ne _ (Ne.symm hb.2)]
      exact Nat.succ_lt_succ hab

theorem firstMaxBy_nil (cnt : Char → Nat) : firstMaxBy cnt [] = none := rfl

theorem firstMaxBy_cons (cnt : Char → Nat) (x : Char) (xs : List Char) :
    firstMaxBy cnt (x :: xs) =
      match firstMaxBy cnt xs with
      | none => some x
      | some d => if cnt x < cnt d then some d else some x := rfl

theorem firstMaxBy_cons_none (cnt : Char → Nat) (x : Char) (xs : List Char)
    (h : firstMaxBy cnt xs = none) : firstMaxBy cnt (x :: xs) = some x := by
  rw [firstMaxBy_cons, h]

theorem firstMaxBy_cons_some (cnt : Char → Nat) (x : Char) (xs : List Char) (d : Char)
    (h : firstMaxBy cnt xs = some d) :
    firstMaxBy cnt (x :: xs) = if cnt x < cnt d then some d else some x := by
  rw [firstMaxBy_cons, h]

theorem firstMaxBy_cons_isSome (cnt : Char → Nat) (x : Char) (xs : List Char) :
    ∃ y, firstMaxBy cnt (x :: xs) = some y := by
  cases hx : firstMaxBy cnt xs with
  | none => exact ⟨x, firstMaxBy_cons_none cnt x xs hx⟩
  | some d =>
    rw [firstMaxBy_cons_some cnt x xs d hx]
    by_cases hcmp : cnt x < cnt d
    · exact ⟨d, if_pos hcmp⟩
    · exact ⟨x, if_neg hcmp⟩

theorem firstMaxBy_eq_none : ∀ (cnt : Char → Nat) (l : List Char),
    firstMaxBy cnt l = none ↔ l = [] := by
  intro cnt l
  cases l with
  | nil => simp [firstMaxBy_nil]
  | cons c cs =>
    constructor
    · intro h
      obtain ⟨y, hy⟩ := firstMaxBy_cons_isSome cnt c cs
      rw [hy] at h
      cases h
    · intro h
      cases h

theorem firstMaxBy_spec : ∀ (cnt : Char → Nat) (l : List Char) (c : Char),
    firstMaxBy cnt l = some c →
    ∃ l₁ l₂, l = l₁ ++ c :: l₂ ∧ (∀ d ∈ l₁, cnt d < cnt c) ∧ (∀ d ∈ l₂, cnt d ≤ cnt c) := by
  intro cnt l
  induction l with
  | nil => intro c h; simp [firstMaxBy_nil] at h
  | cons x xs ih =>
    intro c h
    cases hx : firstMaxBy cnt xs with
    | none =>
      rw [firstMaxBy_cons_none cnt x xs hx] at h
      cases h
      have hxs : xs = [] := (firstMaxBy_eq_none cnt xs).mp hx
      subst hxs
      exact ⟨[], [], rfl, by simp, by simp⟩
    | some d =>
      rw [firstMaxBy_cons_some cnt x xs d hx] at h
      obtain ⟨M₁, M₂, hdec, hlt, hle⟩ := ih d hx
      by_cases hcmp : cnt x < cnt d
      · rw [if_pos hcmp] at h
        cases h
        refine ⟨x :: M₁, M₂, by rw [hdec, List.cons_append], ?_, hle⟩
        intro e he
        rcases List.mem_cons.mp he with rfl | he'
        · exact hcmp
        · exact hlt e he'
      · rw [if_neg hcmp] at h
        cases h
        push_neg at hcmp
        refine ⟨[], xs, rfl, by simp, ?_⟩
        intro e he
        rw [hdec] at he
        rcases List.mem_append.mp he with he' | he'
        · exact le_of_lt (lt_of_lt_of_le (hlt e he') hcmp)
        · rcases List.mem_cons.mp he' with rfl | he''
          · exact hcmp
          · exact le_trans (hle e he'') hcmp

theorem firstMaxBy_mem {cnt : Char → Nat} {l : List Char} {c : Char}
    (h : firstMaxBy cnt l = some c) : c ∈ l := by
  obtain ⟨l₁, l₂, hdec, -, -⟩ := firstMaxBy_spec cnt l c h
  rw [hdec]
  exact List.mem_append.mpr (Or.inr (List.mem_cons_self _ _))

theorem firstMaxBy_congr : ∀ (cnt cnt' : Char → Nat) (l : List Char),
    (∀ x ∈ l, cnt x = cnt' x) → firstMaxBy cnt l = firstMaxBy cnt' l := by
  intro cnt cnt' l
  induction l with
  | nil => intro _; rfl
  | cons x xs ih =>
    intro h
    have htail := ih (fun y hy => h y (List.mem_cons_of_mem _ hy))
    cases hx : firstMaxBy cnt' xs with
    | none =>
      rw [firstMaxBy_cons_none cnt x xs (htail.trans hx),
        firstMaxBy_cons_none cnt' x xs hx]
    | some d =>
      have hd : d ∈ xs := firstMaxBy_mem hx
      rw [firstMaxBy_cons_some cnt x xs d (htail.trans hx),
        firstMaxBy_cons_some cnt' x xs d hx,
        h x (List.mem_cons_self _ _), h d (List.mem_cons_of_mem _ hd)]

theorem foldl_pop_keys : ∀ (M : List Char) (cnt : Counter),
    (M.foldl Counter.pop cnt).keys = cnt.keys.filter (fun k => decide (k ∉ M)) := by
  intro M
  induction M with
  | nil =>
    intro cnt
    rw [List.foldl_nil]
    have : cnt.keys.filter (fun k => decide (k ∉ ([] : List Char))) = cnt.keys.filter (fun _ => true) := by
      apply List.filter_congr
      intro x _
      simp
    rw [this, List.filter_true]
  | cons m ms ih =>
    intro cnt
    rw [List.foldl_cons, ih]
    show (cnt.keys.filter (fun d => decide (d ≠ m))).filter (fun k => decide (k ∉ ms)) = _
    rw [List.filter_filter]
    apply List.filter_congr
    intro x _
    rw [← Bool.decide_and, decide_eq_decide]
    simp only [List.mem_cons, not_or]
    constructor
    · rintro ⟨h1, h2⟩; exact ⟨h2, h1⟩
    · rintro ⟨h1, h2⟩; exact ⟨h2, h1⟩

theorem foldl_pop_count : ∀ (M : List Char) (cnt : Counter) (k : Char),
    k ∉ M → (M.foldl Counter.pop cnt).count k = cnt.count k := by
  intro M
  induction M with
  | nil => intro cnt k _; rfl
  | cons m ms ih =>
    intro cnt k hk
    rw [List.foldl_cons, ih _ _ (fun h => hk (List.mem_cons_of_mem _ h))]
    show (if k = m then 0 else cnt.count k) = cnt.count k
    rw [if_neg (fun h => hk (List.mem_cons.mpr (Or.inl h)))]

theorem most_common_letter_eq (W : List Word) (M : List Char) :
    most_common_letter W M =
      match firstMaxBy (fun c => W.flatten.count c) (unrevealed_keys W M) with
      | some c => Except.ok c
      | none => Except.error PyErr.IndexError := by
  have hkeys : (M.foldl Counter.pop (get_char_frequency W)).keys = unrevealed_keys W M := by
    rw [foldl_pop_keys]; rfl
  have hcnt : firstMaxBy (M.foldl Counter.pop (get_char_frequency W)).count
      ((M.foldl Counter.pop (get_char_frequency W)).keys)
      = firstMaxBy (fun c => W.flatten.count c) (unrevealed_keys W M) := by
    rw [hkeys]
    apply firstMaxBy_congr
    intro x hx
    have hxM : x ∉ M := by
      rw [unrevealed_keys, List.mem_filter, decide_eq_true_eq] at hx
      exact hx.2
    rw [foldl_pop_count _ _ _ hxM]
    rfl
  show (match firstMaxBy (M.foldl Counter.pop (get_char_frequency W)).count
      ((M.foldl Counter.pop (get_char_frequency W)).keys) with
    | some c => Except.ok c
    | none => Except.error PyErr.IndexError) = _
  rw [hcnt]

theorem mem_unrevealed_keys (W : List Word) (M : List Char) (c : Char) :
    c ∈ unrevealed_keys W M ↔ c ∈ W.flatten ∧ c ∉ M := by
  rw [unrevealed_keys, List.mem_filter, decide_eq_true_eq, mem_firstSeen]

theorem most_common_letter_ok_mem {W : List Word} {M : List Char} {c : Char}
    (h : most_common_letter W M = Except.ok c) : c ∈ W.flatten ∧ c ∉ M := by
  rw [most_common_letter_eq] at h
  cases hf : firstMaxBy (fun c => W.flatten.count c) (unrevealed_keys W M) with
  | none => rw [hf] at h; cases h
  | some d =>
    rw [hf] at h
    cases h
    exact (mem_unrevealed_keys W M c).mp (firstMaxBy_mem hf)

theorem most_common_letter_ok_of_ne {W : List Word} {M : List Char}
    (h : unrevealed_keys W M ≠ []) : ∃ c, most_common_letter W M = Except.ok c := by
  rw [most_common_letter_eq]
  cases hf : firstMaxBy (fun c => W.flatten.count c) (unrevealed_keys W M) with
  | none => exact absurd ((firstMaxBy_eq_none _ _).mp hf) h
  | some d => exact ⟨d, rfl⟩

theorem most_common_letter_error_iff (W : List Word) (M : List Char) :
    most_common_letter W M = Except.error PyErr.IndexError ↔ unrevealed_keys W M = [] := by
  rw [most_common_letter_eq]
  cases hf : firstMaxBy (fun c => W.flatten.count c) (unrevealed_keys W M) with
  | none =>
    constructor
    · intro _
      exact (firstMaxBy_eq_none _ _).mp hf
    · intro _
      rfl
  | some d =>
    constructor
    · intro h
      cases h
    · intro h
      rw [h, firstMaxBy_nil] at hf
      cases hf

/-! ## Characterisation of the candidate filters -/

theorem checkWord_nil (letter : Char) (w : Word) : checkWord letter [] w = Except.ok true := rfl

theorem checkWord_cons (letter : Char) (i : Nat) (rest : List Nat) (w : Word) :
    checkWord letter (i :: rest) w =
      match w.get? i with
      | none => Except.error PyErr.IndexError
      | some ch => if ch = letter then checkWord letter rest w else Except.ok false := rfl

theorem checkWord_cons_some (letter : Char) (i : Nat) (rest : List Nat) (w : Word)
    (ch : Char) (h : w.get? i = some ch) :
    checkWord letter (i :: rest) w =
      if ch = letter then checkWord letter rest w else Except.ok false := by
  rw [checkWord_cons, h]

theorem checkWord_ok_true (letter : Char) (P : List Nat) (w : Word)
    (h : ∀ i ∈ P, w.get? i = some letter) : checkWord letter P w = Except.ok true := by
  induction P with
  | nil => rfl
  | cons i rest ih =>
    rw [checkWord_cons_some letter i rest w letter (h i (List.mem_cons_self _ _)), if_pos rfl]
    exact ih (fun j hj => h j (List.mem_cons_of_mem _ hj))

theorem checkWord_eq_decide (letter : Char) (P : List Nat) (w : Word)
    (hb : ∀ i ∈ P, i < w.length) :
    checkWord letter P w = Except.ok (decide (∀ i ∈ P, w.get? i = some letter)) := by
  induction P with
  | nil => simp [checkWord_nil]
  | cons i rest ih =>
    have hi : i < w.length := hb i (List.mem_cons_self _ _)
    rw [checkWord_cons_some letter i rest w _ (List.get?_eq_get hi)]
    by_cases hw : w.get ⟨i, hi⟩ = letter
    · rw [if_pos hw, ih (fun j hj => hb j (List.mem_cons_of_mem _ hj))]
      congr 1
      rw [decide_eq_decide]
      constructor
      · intro hall j hj
        rcases List.mem_cons.mp hj with rfl | hj'
        · rw [List.get?_eq_get hi, hw]
        · exact hall j hj'
      · intro hall j hj
        exact hall j (List.mem_cons_of_mem _ hj)
    · rw [if_neg hw]
      have hnot : ¬(∀ j ∈ i :: rest, w.get? j = some letter) := by
        intro hall
        have hh := hall i (List.mem_cons_self _ _)
        rw [List.get?_eq_get hi] at hh
        exact hw (Option.some.inj hh)
      rw [decide_eq_false hnot]

theorem known_nil (letter : Char) (P : List Nat) :
    filter_by_known_letter [] letter P = Except.ok [] := rfl

theorem known_cons (w : Word) (ws : List Word) (letter : Char) (P : List Nat) :
    filter_by_known_letter (w :: ws) letter P =
      match checkWord letter P w with
      | Except.error e => Except.error e
      | Except.ok b =>
        match filter_by_known_letter ws letter P with
        | Except.error e => Except.error e
        | Except.ok rest => Except.ok (if b then w :: rest else rest) := rfl

theorem known_cons_ok (w : Word) (ws : List Word) (letter : Char) (P : List Nat)
    (b : Bool) (rest : List Word) (h1 : checkWord letter P w = Except.ok b)
    (h2 : filter_by_known_letter ws letter P = Except.ok rest) :
    filter_by_known_letter (w :: ws) letter P = Except.ok (if b then w :: rest else rest) := by
  rw [known_cons, h1, h2]

theorem filter_by_known_letter_eq_filter : ∀ (W : List Word) (letter : Char) (P : List Nat),
    (∀ w ∈ W, ∀ i ∈ P, i < w.length) →
    filter_by_known_letter W letter P
      = Except.ok (W.filter (fun w => decide (∀ i ∈ P, w.get? i = some letter))) := by
  intro W letter P
  induction W with
  | nil => intro _; rfl
  | cons w ws ih =>
    intro hb
    rw [known_cons_ok w ws letter P _ _
      (checkWord_eq_decide letter P w (hb w (List.mem_cons_self _ _)))
      (ih (fun v hv => hb v (List.mem_cons_of_mem _ hv))),
      List.filter_cons]

theorem filter_by_known_letter_sublist : ∀ (W : List Word) (letter : Char) (P : List Nat)
    (ws : List Word), filter_by_known_letter W letter P = Except.ok ws → ws.Sublist W := by
  intro W letter P
  induction W with
  | nil =>
    intro ws h
    cases h
    exact List.Sublist.refl _
  | cons w W' ih =>
    intro ws h
    cases hc : checkWord letter P w with
    | error e => rw [known_cons, hc] at h; cases h
    | ok b =>
      cases hr : filter_by_known_letter W' letter P with
      | error e => rw [known_cons, hc, hr] at h; cases h
      | ok rest =>
        rw [known_cons_ok _ _ _ _ _ _ hc hr] at h
        cases h
        cases b with
        | false => simpa using List.Sublist.cons w (ih rest hr)
        | true => simpa using List.Sublist.cons₂ w (ih rest hr)

theorem filter_by_known_letter_mem : ∀ (W : List Word) (letter : Char) (P : List Nat)
    (ws : List Word), filter_by_known_letter W letter P = Except.ok ws →
    ∀ v, v ∈ ws ↔ (v ∈ W ∧ checkWord letter P v = Except.ok true) := by
  intro W letter P
  induction W with
  | nil =>
    intro ws h v
    cases h
    simp
  | cons w W' ih =>
    intro ws h v
    cases hc : checkWord letter P w with
    | error e => rw [known_cons, hc] at h; cases h
    | ok b =>
      cases hr : filter_by_known_letter W' letter P with
      | error e => rw [known_cons, hc, hr] at h; cases h
      | ok rest =>
        rw [known_cons_ok _ _ _ _ _ _ hc hr] at h
        cases h
        have ihv := ih rest hr v
        cases b with
        | false =>
          rw [show (if (false : Bool) then w :: rest else rest) = rest from rfl, ihv]
          constructor
          · rintro ⟨hv, hcv⟩
            exact ⟨List.mem_cons_of_mem _ hv, hcv⟩
          · rintro ⟨hv, hcv⟩
            rcases List.mem_cons.mp hv with rfl | hv'
            · rw [hc] at hcv
              cases hcv
            · exact ⟨hv', hcv⟩
        | true =>
          rw [show (if (true : Bool) then w :: rest else rest) = w :: rest from rfl,
            List.mem_cons, ihv]
          constructor
          · rintro (rfl | ⟨hv, hcv⟩)
            · exact ⟨List.mem_cons_self _ _, hc⟩
            · exact ⟨List.mem_cons_of_mem _ hv, hcv⟩
          · rintro ⟨hv, hcv⟩
            rcases List.mem_cons.mp hv with rfl | hv'
            · exact Or.inl rfl
            · exact Or.inr ⟨hv', hcv⟩

theorem mem_filter_by_excluded_letter (W : List Word) (c : Char) (v : Word) :
    v ∈ filter_by_excluded_letter W c ↔ v ∈ W ∧ c ∉ v := by
  rw [filter_by_excluded_letter, List.mem_filter, decide_eq_true_eq]

theorem filter_by_excluded_letter_sublist (W : List Word) (c : Char) :
    (filter_by_excluded_letter W c).Sublist W := List.filter_sublist _

theorem mem_expected_indices (word : Word) (letter : Char) (i : Nat) :
    i ∈ expected_indices word letter ↔ i < word.length ∧ word.get? i = some letter := by
  rw [expected_indices, List.mem_filter, List.mem_range, decide_eq_true_eq]

theorem expected_indices_eq_nil_iff (word : Word) (letter : Char) :
    expected_indices word letter = [] ↔ letter ∉ word := by
  constructor
  · intro h hmem
    obtain ⟨⟨i, hi⟩, hg⟩ := List.mem_iff_get.mp hmem
    have hmemi : i ∈ expected_indices word letter :=
      (mem_expected_indices _ _ _).mpr ⟨hi, by rw [List.get?_eq_get hi, hg]⟩
    rw [h] at hmemi
    cases hmemi
  · intro h
    cases he : expected_indices word letter with
    | nil => rfl
    | cons i rest =>
      exfalso
      have hi : i ∈ expected_indices word letter := by
        rw [he]
        exact List.mem_cons_self _ _
      obtain ⟨hlt, hget⟩ := (mem_expected_indices _ _ _).mp hi
      rw [List.get?_eq_get hlt] at hget
      have := List.get_mem word i hlt
      rw [Option.some.inj hget] at this
      exact h this

/-! ## The masked word as a set of revealed letters -/

theorem length_revealed (word : Word) (S : List Char) :
    (revealed word S).length = word.length := by
  rw [revealed, List.length_map]

theorem getElem_revealed (word : Word) (S : List Char) (i : Nat)
    (h' : i < (revealed word S).length) (h : i < word.length) :
    (revealed word S)[i] = if word[i] ∈ S then word[i] else '_' := by
  simp only [revealed, List.getElem_map]

theorem mem_revealed {c : Char} {word : Word} {S : List Char}
    (h : c ∈ revealed word S) : c = '_' ∨ (c ∈ word ∧ c ∈ S) := by
  rw [revealed, List.mem_map] at h
  obtain ⟨a, ha, hc⟩ := h
  by_cases haS : a ∈ S
  · rw [if_pos haS] at hc
    exact Or.inr ⟨hc ▸ ha, hc ▸ haS⟩
  · rw [if_neg haS] at hc
    exact Or.inl hc.symm

theorem mem_revealed_of {d : Char} {word : Word} {S : List Char}
    (hd : d ∈ word) (hS : d ∈ S) : d ∈ revealed word S := by
  rw [revealed, List.mem_map]
  exact ⟨d, hd, if_pos hS⟩

theorem revealed_nil (word : Word) : revealed word [] = List.replicate word.length '_' := by
  induction word with
  | nil => rfl
  | cons c cs ih =>
    rw [revealed, List.map_cons, List.length_cons, List.replicate_succ]
    rw [revealed] at ih
    rw [ih, if_neg (List.not_mem_nil c)]

theorem length_foldl_set : ∀ (I : List Nat) (m : List Char) (c : Char),
    (I.foldl (fun a i => a.set i c) m).length = m.length := by
  intro I
  induction I with
  | nil => intro m c; rfl
  | cons i rest ih =>
    intro m c
    rw [List.foldl_cons, ih, List.length_set]

theorem getElem_foldl_set : ∀ (I : List Nat) (m : List Char) (c : Char) (j : Nat)
    (h' : j < (I.foldl (fun a i => a.set i c) m).length) (h : j < m.length),
    (I.foldl (fun a i => a.set i c) m)[j] = if j ∈ I then c else m[j] := by
  intro I
  induction I with
  | nil =>
    intro m c j h' h
    show m[j] = if j ∈ ([] : List Nat) then c else m[j]
    rw [if_neg (List.not_mem_nil j)]
  | cons i rest ih =>
    intro m c j h' h
    have hset : j < (m.set i c).length := by rw [List.length_set]; exact h
    have h'' : j < (List.foldl (fun a i => a.set i c) (m.set i c) rest).length := by
      rw [List.foldl_cons] at h'
      exact h'
    show (List.foldl (fun a i => a.set i c) (m.set i c) rest)[j] = _
    rw [ih (m.set i c) c j h'' hset]
    by_cases hj : j ∈ rest
    · rw [if_pos hj, if_pos (List.mem_cons_of_mem _ hj)]
    · rw [if_neg hj, List.getElem_set]
      by_cases hij : i = j
      · rw [if_pos hij, if_pos (List.mem_cons.mpr (Or.inl hij.symm))]
      · rw [if_neg hij, if_neg (by
          intro hmem
          rcases List.mem_cons.mp hmem with h1 | h2
          · exact hij h1.symm
          · exact hj h2)]

theorem revealed_insert (word : Word) (letter : Char) (S : List Char) :
    (expected_indices word letter).foldl (fun m i => m.set i letter) (revealed word S)
      = revealed word (letter :: S) := by
  apply List.ext_get
  · rw [length_foldl_set, length_revealed, length_revealed]
  · intro n h1 h2
    have hn : n < word.length := by
      rw [length_foldl_set, length_revealed] at h1
      exact h1
    have hrev : n < (revealed word S).length := by
      rw [length_revealed]
      exact hn
    have h2' : n < (revealed word (letter :: S)).length := h2
    rw [List.get_eq_getElem, List.get_eq_getElem,
      getElem_foldl_set _ _ _ _ h1 hrev,
      getElem_revealed word (letter :: S) n h2' hn,
      getElem_revealed word S n hrev hn]
    by_cases hmem : n ∈ expected_indices word letter
    · obtain ⟨-, hget⟩ := (mem_expected_indices _ _ _).mp hmem
      rw [List.get?_eq_get hn, List.get_eq_getElem] at hget
      have hw : word[n] = letter := Option.some.inj hget
      rw [if_pos hmem, if_pos (List.mem_cons.mpr (Or.inl hw)), hw]
    · have hw : word[n] ≠ letter := by
        intro hw
        exact hmem ((mem_expected_indices _ _ _).mpr
          ⟨hn, by rw [List.get?_eq_get hn, List.get_eq_getElem, hw]⟩)
      rw [if_neg hmem]
      by_cases hS : word[n] ∈ S
      · rw [if_pos hS, if_pos (List.mem_cons.mpr (Or.inr hS))]
      · rw [if_neg hS, if_neg (by
          intro hmem2
          rcases List.mem_cons.mp hmem2 with h1 | h2
          · exact hw h1
          · exact hS h2)]

theorem underscore_not_lowercase : ('_' : Char) ∉ LOWERCASE := by decide

theorem length_le_of_nodup_subset_lowercase (l : List Char) (hnd : l.Nodup)
    (hsub : ∀ c ∈ l, c ∈ LOWERCASE) : l.length ≤ 26 := by
  have hsp : l.Subperm LOWERCASE := hnd.subperm (fun c hc => hsub c hc)
  have h26 : LOWERCASE.length = 26 := rfl
  exact h26 ▸ hsp.length_le

/-! ## Equations for one loop iteration -/

theorem game_step_known (word : Word) (st : GameState) (letter : Char) (ws : List Word)
    (hl : most_common_letter st.words st.masked_word = Except.ok letter)
    (hne : expected_indices word letter ≠ [])
    (hf : filter_by_known_letter st.words letter (expected_indices word letter) = Except.ok ws) :
    game_step word st = Except.ok
      { words := ws,
        masked_word := (expected_indices word letter).foldl (fun m i => m.set i letter) st.masked_word,
        wrong_guesses := st.wrong_guesses } := by
  unfold game_step
  rw [hl]
  show ((if expected_indices word letter ≠ [] then
      (match filter_by_known_letter st.words letter (expected_indices word letter) with
       | Except.error e => Except.error e
       | Except.ok ws =>
         Except.ok (GameState.mk ws ((expected_indices word letter).foldl
           (fun m i => m.set i letter) st.masked_word) st.wrong_guesses))
    else Except.ok (GameState.mk (filter_by_excluded_letter st.words letter)
      st.masked_word (st.wrong_guesses + 1))) : Except PyErr GameState) = _
  rw [if_pos hne, hf]

theorem game_step_absent (word : Word) (st : GameState) (letter : Char)
    (hl : most_common_letter st.words st.masked_word = Except.ok letter)
    (h0 : expected_indices word letter = []) :
    game_step word st = Except.ok
      { words := filter_by_excluded_letter st.words letter,
        masked_word := st.masked_word,
        wrong_guesses := st.wrong_guesses + 1 } := by
  unfold game_step
  rw [hl]
  show ((if expected_indices word letter ≠ [] then
      (match filter_by_known_letter st.words letter (expected_indices word letter) with
       | Except.error e => Except.error e
       | Except.ok ws =>
         Except.ok (GameState.mk ws ((expected_indices word letter).foldl
           (fun m i => m.set i letter) st.masked_word) st.wrong_guesses))
    else Except.ok (GameState.mk (filter_by_excluded_letter st.words letter)
      st.masked_word (st.wrong_guesses + 1))) : Except PyErr GameState) = _
  rw [if_neg (fun hcond => hcond h0)]

theorem game_step_eq_error (word : Word) (st : GameState) (e : PyErr)
    (hl : most_common_letter st.words st.masked_word = Except.error e) :
    game_step word st = Except.error e := by
  unfold game_step
  rw [hl]

theorem game_step_eq_known_error (word : Word) (st : GameState) (letter : Char) (e : PyErr)
    (hl : most_common_letter st.words st.masked_word = Except.ok letter)
    (hne : expected_indices word letter ≠ [])
    (hf : filter_by_known_letter st.words letter (expected_indices word letter)
        = Except.error e) :
    game_step word st = Except.error e := by
  unfold game_step
  rw [hl]
  show ((if expected_indices word letter ≠ [] then
      (match filter_by_known_letter st.words letter (expected_indices word letter) with
       | Except.error e => Except.error e
       | Except.ok ws =>
         Except.ok (GameState.mk ws ((expected_indices word letter).foldl
           (fun m i => m.set i letter) st.masked_word) st.wrong_guesses))
    else Except.ok (GameState.mk (filter_by_excluded_letter st.words letter)
      st.masked_word (st.wrong_guesses + 1))) : Except PyErr GameState) = _
  rw [if_pos hne, hf]

theorem game_step_inv (word : Word) (st st' : GameState)
    (h : game_step word st = Except.ok st') :
    ∃ letter, most_common_letter st.words st.masked_word = Except.ok letter ∧
      ((expected_indices word letter ≠ [] ∧
        ∃ ws, filter_by_known_letter st.words letter (expected_indices word letter)
            = Except.ok ws ∧
          st' = { words := ws,
                  masked_word := (expected_indices word letter).foldl
                    (fun m i => m.set i letter) st.masked_word,
                  wrong_guesses := st.wrong_guesses }) ∨
       (expected_indices word letter = [] ∧
        st' = { words := filter_by_excluded_letter st.words letter,
                masked_word := st.masked_word,
                wrong_guesses := st.wrong_guesses + 1 })) := by
  cases hl : most_common_letter st.words st.masked_word with
  | error e =>
    rw [game_step_eq_error word st e hl] at h
    cases h
  | ok letter =>
    refine ⟨letter, rfl, ?_⟩
    by_cases hne : expected_indices word letter = []
    · right
      rw [game_step_absent word st letter hl hne] at h
      cases h
      exact ⟨hne, rfl⟩
    · left
      cases hf : filter_by_known_letter st.words letter (expected_indices word letter) with
      | error e =>
        rw [game_step_eq_known_error word st letter e hl hne hf] at h
        cases h
      | ok ws =>
        rw [game_step_known word st letter ws hl hne hf] at h
        cases h
        exact ⟨hne, ws, rfl, rfl⟩

/-! ## The loop invariant for a truthfully played game -/

/-- State invariant of the loop, relative to the secret `word` and the list
`S` of letters guessed correctly so far: the secret is still a candidate,
candidates are distinct words of the secret's length over the lowercase
alphabet, the masked word shows exactly the letters of `S`, and every
candidate agrees with the secret on every revealed position. -/
structure GameInv (word : Word) (S : List Char) (st : GameState) : Prop where
  mem : word ∈ st.words
  nodup : st.words.Nodup
  len_eq : ∀ v ∈ st.words, v.length = word.length
  lower : ∀ v ∈ st.words, ∀ c ∈ v, c ∈ LOWERCASE
  masked_eq : st.masked_word = revealed word S
  agree : ∀ v ∈ st.words, ∀ i : Nat, ∀ h : i < word.length, ∀ hv : i < v.length,
    word.get ⟨i, h⟩ ∈ S → v.get ⟨i, hv⟩ = word.get ⟨i, h⟩

theorem hangmen_max : HANGMEN.length - 1 = 6 := rfl

theorem check_game_over_playing {st : GameState}
    (h : check_game_over st = Outcome.Playing) :
    st.wrong_guesses ≤ 5 ∧ st.words.length ≠ 1 := by
  rw [check_game_over, hangmen_max] at h
  by_cases h6 : 6 ≤ st.wrong_guesses
  · rw [if_pos h6] at h
    cases h
  · rw [if_neg h6] at h
    by_cases h1 : st.words.length = 1
    · rw [if_pos h1] at h
      cases h
    · exact ⟨Nat.lt_succ_iff.mp (Nat.lt_of_not_le h6), h1⟩

theorem exists_unrevealed_of_playing (word : Word) (S : List Char) (st : GameState)
    (hInv : GameInv word S st) (hp : check_game_over st = Outcome.Playing) :
    ∃ d ∈ word, d ∉ S := by
  by_contra hno
  push_neg at hno
  have hall : ∀ v ∈ st.words, v = word := by
    intro v hv
    apply List.ext_get (hInv.len_eq v hv)
    intro n h1 h2
    exact hInv.agree v hv n h2 h1 (hno _ (List.get_mem word n h2))
  have h1 : st.words.length = 1 := by
    have hmem := hInv.mem
    have hnd := hInv.nodup
    cases hws : st.words with
    | nil =>
      rw [hws] at hmem
      cases hmem
    | cons w ws' =>
      cases hws' : ws' with
      | nil => rfl
      | cons v rest =>
        exfalso
        have hw : w = word := hall w (by rw [hws]; exact List.mem_cons_self _ _)
        have hv : v = word := hall v (by
          rw [hws, hws']
          exact List.mem_cons_of_mem _ (List.mem_cons_self _ _))
        rw [hws, hws', List.nodup_cons] at hnd
        exact hnd.1 (by rw [hw, ← hv]; exact List.mem_cons_self _ _)
  exact (check_game_over_playing hp).2 h1

theorem mcl_ok_of_unrevealed (word : Word) (S : List Char) (st : GameState)
    (hInv : GameInv word S st) (hd : ∃ d ∈ word, d ∉ S) :
    ∃ c, most_common_letter st.words st.masked_word = Except.ok c := by
  obtain ⟨d, hdw, hdS⟩ := hd
  apply most_common_letter_ok_of_ne
  intro hempty
  have hdmem : d ∈ unrevealed_keys st.words st.masked_word := by
    rw [mem_unrevealed_keys]
    refine ⟨List.mem_flatten.mpr ⟨word, hInv.mem, hdw⟩, ?_⟩
    rw [hInv.masked_eq]
    intro hmem
    rcases mem_revealed hmem with h1 | ⟨-, h2⟩
    · have hlc := hInv.lower word hInv.mem d hdw
      rw [h1] at hlc
      exact underscore_not_lowercase hlc
    · exact hdS h2
  rw [hempty] at hdmem
  cases hdmem

theorem letter_not_in_S {word : Word} {S : List Char} {st : GameState} {c : Char}
    (hInv : GameInv word S st)
    (hc : most_common_letter st.words st.masked_word = Except.ok c)
    (hcw : c ∈ word) : c ∉ S := by
  intro hS
  have hnm := (most_common_letter_ok_mem hc).2
  rw [hInv.masked_eq] at hnm
  exact hnm (mem_revealed_of hcw hS)

theorem game_step_preserves (word : Word) (S : List Char) (st : GameState)
    (hInv : GameInv word S st) (hd : ∃ d ∈ word, d ∉ S) :
    ∃ st', game_step word st = Except.ok st' ∧
      ((∃ c, c ∈ word ∧ c ∉ S ∧ GameInv word (c :: S) st' ∧
          st'.wrong_guesses = st.wrong_guesses ∧ st'.words.Sublist st.words) ∨
       (GameInv word S st' ∧ st'.wrong_guesses = st.wrong_guesses + 1 ∧
          st'.words.Sublist st.words)) := by
  obtain ⟨letter, hl⟩ := mcl_ok_of_unrevealed word S st hInv hd
  by_cases hne : expected_indices word letter = []
  · refine ⟨_, game_step_absent word st letter hl hne,
      Or.inr ⟨?_, rfl, filter_by_excluded_letter_sublist _ _⟩⟩
    have hlw : letter ∉ word := (expected_indices_eq_nil_iff word letter).mp hne
    have hsub := (filter_by_excluded_letter_sublist st.words letter).subset
    exact
      { mem := (mem_filter_by_excluded_letter _ _ _).mpr ⟨hInv.mem, hlw⟩,
        nodup := List.Nodup.sublist (filter_by_excluded_letter_sublist _ _) hInv.nodup,
        len_eq := fun v hv => hInv.len_eq v (hsub hv),
        lower := fun v hv => hInv.lower v (hsub hv),
        masked_eq := hInv.masked_eq,
        agree := fun v hv => hInv.agree v (hsub hv) }
  · have hlw : letter ∈ word := by
      by_contra hlw
      exact hne ((expected_indices_eq_nil_iff word letter).mpr hlw)
    have hbounds : ∀ v ∈ st.words, ∀ i ∈ expected_indices word letter, i < v.length := by
      intro v hv i hi
      rw [hInv.len_eq v hv]
      exact ((mem_expected_indices _ _ _).mp hi).1
    have hfeq := filter_by_known_letter_eq_filter st.words letter
      (expected_indices word letter) hbounds
    have hsub : (st.words.filter
        (fun w => decide (∀ i ∈ expected_indices word letter, w.get? i = some letter))).Sublist
        st.words := List.filter_sublist _
    refine ⟨_, game_step_known word st letter _ hl hne hfeq,
      Or.inl ⟨letter, hlw, letter_not_in_S hInv hl hlw, ?_, rfl, hsub⟩⟩
    refine
      { mem := ?_,
        nodup := List.Nodup.sublist hsub hInv.nodup,
        len_eq := fun v hv => hInv.len_eq v (hsub.subset hv),
        lower := fun v hv => hInv.lower v (hsub.subset hv),
        masked_eq := ?_,
        agree := ?_ }
    · refine List.mem_filter.mpr ⟨hInv.mem, ?_⟩
      rw [decide_eq_true_eq]
      intro i hi
      exact ((mem_expected_indices _ _ _).mp hi).2
    · show (expected_indices word letter).foldl (fun m i => m.set i letter) st.masked_word
        = revealed word (letter :: S)
      rw [hInv.masked_eq, revealed_insert]
    · intro v hv i h hvlen hmem
      rcases List.mem_cons.mp hmem with hlet | hS
      · have hi : i ∈ expected_indices word letter := by
          refine (mem_expected_indices _ _ _).mpr ⟨h, ?_⟩
          rw [List.get?_eq_get h, hlet]
        have hpred := (List.mem_filter.mp hv).2
        rw [decide_eq_true_eq] at hpred
        have hgv := hpred i hi
        rw [List.get?_eq_get hvlen] at hgv
        rw [Option.some.inj hgv, hlet]
      · exact hInv.agree v (hsub.subset hv) i h hvlen hS

/-! ## Termination measure -/

/-- Number of distinct letters of the secret word not yet guessed correctly. -/
def unrevealed_count (word : Word) (S : List Char) : Nat :=
  ((firstSeen word).filter (fun c => decide (c ∉ S))).length

/-- Upper bound on the remaining loop iterations: distinct unguessed letters
plus remaining allowed wrong guesses. -/
def turns_left (word : Word) (S : List Char) (wrong : Nat) : Nat :=
  unrevealed_count word S + (6 - wrong)

theorem unrevealed_count_lt (word : Word) (S : List Char) (c : Char)
    (hcw : c ∈ word) (hcS : c ∉ S) :
    unrevealed_count word (c :: S) < unrevealed_count word S := by
  have heq : (firstSeen word).filter (fun d => decide (d ∉ c :: S))
      = ((firstSeen word).filter (fun d => decide (d ∉ S))).filter
          (fun d => decide (d ≠ c)) := by
    rw [List.filter_filter]
    apply List.filter_congr
    intro x _
    rw [← Bool.decide_and, decide_eq_decide]
    simp only [List.mem_cons, not_or]
  rw [unrevealed_count, unrevealed_count, heq]
  apply List.length_filter_lt_length_iff_exists.mpr
  refine ⟨c, List.mem_filter.mpr ⟨(mem_firstSeen word c).mpr hcw, ?_⟩, by simp⟩
  rw [decide_eq_true_eq]
  exact hcS

theorem unrevealed_count_pos (word : Word) (S : List Char) (d : Char)
    (hd : d ∈ word) (hdS : d ∉ S) : 0 < unrevealed_count word S := by
  rw [unrevealed_count]
  apply List.length_pos.mpr
  intro hnil
  have hmem : d ∈ (firstSeen word).filter (fun c => decide (c ∉ S)) := by
    refine List.mem_filter.mpr ⟨(mem_firstSeen _ _).mpr hd, ?_⟩
    rw [decide_eq_true_eq]
    exact hdS
  rw [hnil] at hmem
  cases hmem

theorem unrevealed_count_le_26 (word : Word) (hlow : ∀ c ∈ word, c ∈ LOWERCASE) :
    unrevealed_count word [] ≤ 26 := by
  rw [unrevealed_count]
  refine le_trans (List.Sublist.length_le (List.filter_sublist _)) ?_
  exact length_le_of_nodup_subset_lowercase _ (nodup_firstSeen word)
    (fun c hc => hlow c ((mem_firstSeen _ _).mp hc))

/-! ## Equations for the loop -/

theorem run_game_zero (word : Word) (st : GameState) :
    run_game word 0 st = Except.ok none := rfl

theorem run_game_succ (word : Word) (fuel : Nat) (st : GameState) :
    run_game word (fuel + 1) st =
      match game_step word st with
      | Except.error e => Except.error e
      | Except.ok st' =>
        match check_game_over st' with
        | Outcome.Playing => run_game word fuel st'
        | Outcome.Failed => Except.ok (some (Outcome.Failed, st'))
        | Outcome.Solved =>
          Except.ok (some (Outcome.Solved,
            { st' with masked_word := st'.words.headD [] })) := rfl

theorem run_game_eq_playing (word : Word) (fuel : Nat) (st st' : GameState)
    (hs : game_step word st = Except.ok st')
    (hp : check_game_over st' = Outcome.Playing) :
    run_game word (fuel + 1) st = run_game word fuel st' := by
  rw [run_game_succ, hs]
  show (match check_game_over st' with
    | Outcome.Playing => run_game word fuel st'
    | Outcome.Failed => Except.ok (some (Outcome.Failed, st'))
    | Outcome.Solved =>
      Except.ok (some (Outcome.Solved,
        { st' with masked_word := st'.words.headD [] }))) = _
  rw [hp]

theorem run_game_eq_failed (word : Word) (fuel : Nat) (st st' : GameState)
    (hs : game_step word st = Except.ok st')
    (hp : check_game_over st' = Outcome.Failed) :
    run_game word (fuel + 1) st = Except.ok (some (Outcome.Failed, st')) := by
  rw [run_game_succ, hs]
  show (match check_game_over st' with
    | Outcome.Playing => run_game word fuel st'
    | Outcome.Failed => Except.ok (some (Outcome.Failed, st'))
    | Outcome.Solved =>
      Except.ok (some (Outcome.Solved,
        { st' with masked_word := st'.words.headD [] }))) = _
  rw [hp]

theorem run_game_eq_solved (word : Word) (fuel : Nat) (st st' : GameState)
    (hs : game_step word st = Except.ok st')
    (hp : check_game_over st' = Outcome.Solved) :
    run_game word (fuel + 1) st
      = Except.ok (some (Outcome.Solved,
          { st' with masked_word := st'.words.headD [] })) := by
  rw [run_game_succ, hs]
  show (match check_game_over st' with
    | Outcome.Playing => run_game word fuel st'
    | Outcome.Failed => Except.ok (some (Outcome.Failed, st'))
    | Outcome.Solved =>
      Except.ok (some (Outcome.Solved,
        { st' with masked_word := st'.words.headD [] }))) = _
  rw [hp]

/-! ## Termination of the loop -/

theorem run_game_terminates (word : Word) : ∀ (fuel : Nat) (S : List Char) (st : GameState),
    GameInv word S st → turns_left word S st.wrong_guesses ≤ fuel →
    (check_game_over st = Outcome.Playing ∨ ∃ d ∈ word, d ∉ S) →
    ∃ o st', run_game word fuel st = Except.ok (some (o, st')) ∧ o ≠ Outcome.Playing := by
  intro fuel
  induction fuel with
  | zero =>
    intro S st hInv hfuel hentry
    exfalso
    rw [turns_left] at hfuel
    have hdex : ∃ d ∈ word, d ∉ S := by
      rcases hentry with hp | hd
      · have h5 := (check_game_over_playing hp).1
        omega
      · exact hd
    obtain ⟨d, hdw, hdS⟩ := hdex
    have hpos := unrevealed_count_pos word S d hdw hdS
    omega
  | succ fuel ih =>
    intro S st hInv hfuel hentry
    have hdex : ∃ d ∈ word, d ∉ S := by
      rcases hentry with hp | hd
      · exact exists_unrevealed_of_playing word S st hInv hp
      · exact hd
    obtain ⟨st', hs, hcase⟩ := game_step_preserves word S st hInv hdex
    cases ho : check_game_over st' with
    | Failed =>
      exact ⟨Outcome.Failed, st', run_game_eq_failed word fuel st st' hs ho,
        by intro h; cases h⟩
    | Solved =>
      exact ⟨Outcome.Solved, _, run_game_eq_solved word fuel st st' hs ho,
        by intro h; cases h⟩
    | Playing =>
      rw [run_game_eq_playing word fuel st st' hs ho]
      rcases hcase with ⟨c, hcw, hcS, hInv', hwr, -⟩ | ⟨hInv', hwr, -⟩
      · refine ih (c :: S) st' hInv' ?_ (Or.inl ho)
        have hlt := unrevealed_count_lt word S c hcw hcS
        rw [turns_left] at hfuel ⊢
        rw [hwr]
        omega
      · refine ih S st' hInv' ?_ (Or.inl ho)
        have h5 := (check_game_over_playing ho).1
        rw [hwr] at h5
        rw [turns_left] at hfuel ⊢
        rw [hwr]
        omega

theorem mem_filter_by_word_size (V : List Word) (n : Nat) (v : Word) :
    v ∈ filter_by_word_size V n ↔ v ∈ V ∧ v.length = n := by
  rw [filter_by_word_size, List.mem_filter, decide_eq_true_eq]

theorem filter_by_word_size_sublist (V : List Word) (n : Nat) :
    (filter_by_word_size V n).Sublist V := List.filter_sublist _

theorem game_inv_init (V : List Word) (word : Word) (hnd : V.Nodup) (hmem : word ∈ V)
    (hlow : ∀ v ∈ V, ∀ c ∈ v, c ∈ LOWERCASE) :
    GameInv word [] (init_state word V) := by
  refine
    { mem := (mem_filter_by_word_size V word.length word).mpr ⟨hmem, rfl⟩,
      nodup := List.Nodup.sublist (filter_by_word_size_sublist V word.length) hnd,
      len_eq := fun v hv => ((mem_filter_by_word_size V word.length v).mp hv).2,
      lower := fun v hv => hlow v ((filter_by_word_size_sublist V word.length).subset hv),
      masked_eq := (revealed_nil word).symm,
      agree := ?_ }
  intro v hv i h hvlen hS
  cases hS

/-! ## Remaining helpers -/

theorem firstMaxBy_max {cnt : Char → Nat} {l : List Char} {c : Char}
    (h : firstMaxBy cnt l = some c) : ∀ d ∈ l, cnt d ≤ cnt c := by
  obtain ⟨l₁, l₂, hdec, hlt, hle⟩ := firstMaxBy_spec cnt l c h
  intro d hd
  rw [hdec] at hd
  rcases List.mem_append.mp hd with h1 | h2
  · exact le_of_lt (hlt d h1)
  · rcases List.mem_cons.mp h2 with rfl | h3
    · exact le_refl _
    · exact hle d h3

theorem firstMaxBy_tie_indexOf (F : List Char) (p : Char → Bool) (cnt : Char → Nat)
    (c : Char) (h : firstMaxBy cnt ((firstSeen F).filter p) = some c) :
    ∀ d ∈ (firstSeen F).filter p, cnt d = cnt c → F.indexOf c ≤ F.indexOf d := by
  obtain ⟨l₁, l₂, hdec, hlt, hle⟩ := firstMaxBy_spec cnt _ c h
  have hpair : ((firstSeen F).filter p).Pairwise (fun a b => F.indexOf a < F.indexOf b) :=
    List.Pairwise.sublist (List.filter_sublist _) (pairwise_indexOf_firstSeen F)
  rw [hdec, List.pairwise_append, List.pairwise_cons] at hpair
  intro d hd hdc
  rw [hdec] at hd
  rcases List.mem_append.mp hd with h1 | h2
  · exact absurd hdc (by have := hlt d h1; omega)
  · rcases List.mem_cons.mp h2 with rfl | h3
    · exact le_refl _
    · exact le_of_lt (hpair.2.1.1 d h3)

theorem step_keeps_secret (word : Word) (st st' : GameState)
    (hs : game_step word st = Except.ok st') (hmem : word ∈ st.words) :
    word ∈ st'.words := by
  obtain ⟨letter, hl, hcase⟩ := game_step_inv word st st' hs
  rcases hcase with ⟨hne, ws, hf, rfl⟩ | ⟨h0, rfl⟩
  · show word ∈ ws
    refine (filter_by_known_letter_mem st.words letter _ ws hf word).mpr ⟨hmem, ?_⟩
    apply checkWord_ok_true
    intro i hi
    exact ((mem_expected_indices word letter i).mp hi).2
  · show word ∈ filter_by_excluded_letter st.words letter
    exact (mem_filter_by_excluded_letter _ _ _).mpr
      ⟨hmem, (expected_indices_eq_nil_iff word letter).mp h0⟩

theorem run_keeps_secret (word : Word) : ∀ (fuel : Nat) (st : GameState)
    (o : Outcome) (st' : GameState),
    run_game word fuel st = Except.ok (some (o, st')) → word ∈ st.words →
    word ∈ st'.words := by
  intro fuel
  induction fuel with
  | zero =>
    intro st o st' h hmem
    rw [run_game_zero] at h
    cases h
  | succ fuel ih =>
    intro st o st' h hmem
    cases hs : game_step word st with
    | error e =>
      rw [run_game_succ, hs] at h
      cases h
    | ok st1 =>
      have hmem1 : word ∈ st1.words := step_keeps_secret word st st1 hs hmem
      cases ho : check_game_over st1 with
      | Playing =>
        rw [run_game_eq_playing word fuel st st1 hs ho] at h
        exact ih st1 o st' h hmem1
      | Failed =>
        rw [run_game_eq_failed word fuel st st1 hs ho] at h
        cases h
        exact hmem1
      | Solved =>
        rw [run_game_eq_solved word fuel st st1 hs ho] at h
        cases h
        exact hmem1

theorem known_empty_indices (W : List Word) (c : Char) :
    filter_by_known_letter W c [] = Except.ok W := by
  induction W with
  | nil => rfl
  | cons w ws ih =>
    rw [known_cons_ok w ws c [] true ws (checkWord_nil c w) ih]
    rfl

/-! ## The claims -/

/-- C4: for every word list `W`, letter `c` and index list `P` with every
index of `P` smaller than each word's length, `filter_by_known_letter`
returns exactly those words of `W` whose character at every index of `P`
equals `c`, in original order; the filtering predicate inspects only the
given indices, so a word with additional occurrences of `c` at indices not
in `P` is retained. -/
theorem claim_C4 (W : List Word) (c : Char) (P : List Nat)
    (hb : ∀ w ∈ W, ∀ i ∈ P, i < w.length) :
    filter_by_known_letter W c P
      = Except.ok (W.filter (fun w => decide (∀ i ∈ P, w.get? i = some c))) :=
  filter_by_known_letter_eq_filter W c P hb

theorem claim_C4_witness :
    (∀ w ∈ ([['a','b'],['b','a'],['a','a']] : List Word), ∀ i ∈ ([0] : List Nat),
      i < w.length) ∧
    filter_by_known_letter [['a','b'],['b','a'],['a','a']] 'a' [0]
      = Except.ok (([['a','b'],['b','a'],['a','a']] : List Word).filter
          (fun w => decide (∀ i ∈ ([0] : List Nat), w.get? i = some 'a'))) :=
  ⟨by decide, claim_C4 [['a','b'],['b','a'],['a','a']] 'a' [0] (by decide)⟩

/-- C5: whenever `most_common_letter` returns a letter at all, that letter
does not occur in the masked word: every character of the masked word is
popped from the frequency counter before `most_common()` is consulted. -/
theorem claim_C5 (W : List Word) (M : List Char) (c : Char)
    (h : most_common_letter W M = Except.ok c) : c ∉ M :=
  (most_common_letter_ok_mem h).2

theorem claim_C5_witness : ('b' : Char) ∉ (['a'] : List Char) :=
  claim_C5 [['a','b']] ['a'] 'b' (by decide)

/-- C8: both narrowing operations return sublists of their input
(`filter_by_known_letter` whenever it returns at all, and
`filter_by_excluded_letter` always), and consequently one loop iteration
never increases the size of the candidate set. -/
theorem claim_C8 (W : List Word) (c : Char) (P : List Nat) (ws : List Word)
    (word : Word) (st st' : GameState) :
    (filter_by_known_letter W c P = Except.ok ws → ws.Sublist W) ∧
    (filter_by_excluded_letter W c).Sublist W ∧
    (game_step word st = Except.ok st' → st'.words.length ≤ st.words.length) := by
  refine ⟨filter_by_known_letter_sublist W c P ws,
    filter_by_excluded_letter_sublist W c, ?_⟩
  intro hs
  obtain ⟨letter, hl, hcase⟩ := game_step_inv word st st' hs
  rcases hcase with ⟨hne, ws', hf, rfl⟩ | ⟨h0, rfl⟩
  · exact (filter_by_known_letter_sublist _ _ _ _ hf).length_le
  · exact (filter_by_excluded_letter_sublist _ _).length_le

theorem claim_C8_witness :
    ([['a']] : List Word).Sublist [['a'],['b']] ∧
    (filter_by_excluded_letter [['a'],['b']] 'a').Sublist [['a'],['b']] ∧
    (GameState.mk [] ['_'] 1).words.length
      ≤ (GameState.mk [['b']] ['_'] 0).words.length := by
  have h := claim_C8 [['a'],['b']] 'a' [0] [['a']] ['a']
    (GameState.mk [['b']] ['_'] 0) (GameState.mk [] ['_'] 1)
  exact ⟨h.1 (by decide), h.2.1, h.2.2 (by decide)⟩

/-- C9: `filter_by_excluded_letter` is idempotent: excluding the same letter
twice yields the same list as excluding it once. -/
theorem claim_C9 (W : List Word) (c : Char) :
    filter_by_excluded_letter (filter_by_excluded_letter W c) c
      = filter_by_excluded_letter W c := by
  unfold filter_by_excluded_letter
  rw [List.filter_filter]
  apply List.filter_congr
  intro x _
  exact Bool.and_self _

/-- C10: with an empty position list `filter_by_known_letter` is the
identity (the conjunction over `indices` is vacuous), and the game loop
never exercises this case: when the expected index list is empty, the turn
is routed to `filter_by_excluded_letter` and increments the wrong-guess
counter instead. -/
theorem claim_C10 :
    (∀ (W : List Word) (c : Char), filter_by_known_letter W c [] = Except.ok W) ∧
    (∀ (word : Word) (st st' : GameState) (letter : Char),
      game_step word st = Except.ok st' →
      most_common_letter st.words st.masked_word = Except.ok letter →
      expected_indices word letter = [] →
      st'.words = filter_by_excluded_letter st.words letter ∧
      st'.wrong_guesses = st.wrong_guesses + 1) := by
  refine ⟨known_empty_indices, ?_⟩
  intro word st st' letter hs hl h0
  rw [game_step_absent word st letter hl h0] at hs
  cases hs
  exact ⟨rfl, rfl⟩

theorem claim_C10_witness :
    filter_by_known_letter [['a']] 'b' [] = Except.ok [['a']] ∧
    (GameState.mk [] ['_'] 1).words = filter_by_excluded_letter [['b']] 'b' ∧
    (GameState.mk [] ['_'] 1).wrong_guesses = 0 + 1 := by
  refine ⟨claim_C10.1 [['a']] 'b', ?_⟩
  exact claim_C10.2 ['a'] (GameState.mk [['b']] ['_'] 0) (GameState.mk [] ['_'] 1) 'b'
    (by decide) (by decide) (by decide)

/-- C1: the secret word survives every narrowing of a truthfully played
game: `filter_by_excluded_letter` keeps it when the guessed letter is truly
absent from it, `filter_by_known_letter` keeps it when called with its true
position list, hence one `game_step` (whose feedback is forced truthful)
preserves membership, and so does any number of loop iterations. -/
theorem claim_C1 (word : Word) :
    (∀ (W : List Word) (c : Char), c ∉ word → word ∈ W →
      word ∈ filter_by_excluded_letter W c) ∧
    (∀ (W : List Word) (c : Char) (ws : List Word), word ∈ W →
      filter_by_known_letter W c (expected_indices word c) = Except.ok ws →
      word ∈ ws) ∧
    (∀ st st' : GameState, game_step word st = Except.ok st' →
      word ∈ st.words → word ∈ st'.words) ∧
    (∀ (fuel : Nat) (st : GameState) (o : Outcome) (st' : GameState),
      run_game word fuel st = Except.ok (some (o, st')) →
      word ∈ st.words → word ∈ st'.words) := by
  refine ⟨?_, ?_, ?_, run_keeps_secret word⟩
  · intro W c hc hW
    exact (mem_filter_by_excluded_letter _ _ _).mpr ⟨hW, hc⟩
  · intro W c ws hmem hf
    refine (filter_by_known_letter_mem W c _ ws hf word).mpr ⟨hmem, ?_⟩
    apply checkWord_ok_true
    intro i hi
    exact ((mem_expected_indices word c i).mp hi).2
  · intro st st' hs hmem
    exact step_keeps_secret word st st' hs hmem

theorem claim_C1_witness :
    (['a','b'] : Word) ∈ filter_by_excluded_letter [['a','b']] 'c' ∧
    (['a','b'] : Word) ∈ ([['a','b'],['c','b']] : List Word) ∧
    (['a','b'] : Word) ∈ (GameState.mk [['a','b'],['c','b']] ['_','b'] 0).words ∧
    (['a','b'] : Word) ∈ (GameState.mk [['a','b']] ['a','b'] 0).words := by
  have h := claim_C1 ['a','b']
  refine ⟨h.1 [['a','b']] 'c' (by decide) (by decide), ?_, ?_, ?_⟩
  · exact h.2.1 [['a','b'],['c','b']] 'b' [['a','b'],['c','b']] (by decide) (by decide)
  · exact h.2.2.1 (GameState.mk [['a','b'],['c','b']] ['_','_'] 0)
      (GameState.mk [['a','b'],['c','b']] ['_','b'] 0) (by decide) (by decide)
  · exact h.2.2.2 32 (GameState.mk [['a','b'],['c','b']] ['_','_'] 0) Outcome.Solved
      (GameState.mk [['a','b']] ['a','b'] 0) (by decide) (by decide)

/-- C2: on a word list with at least one unrevealed letter,
`most_common_letter` returns an unrevealed letter whose total occurrence
count over the candidate words is maximal among unrevealed letters, and on
ties it returns the letter whose first occurrence comes earliest in the
scan of `words` left to right, word by word, character by character
(`List.indexOf` into the concatenation of the words). -/
theorem claim_C2 (W : List Word) (M : List Char)
    (hW : W ≠ []) (hex : ∃ d ∈ W.flatten, d ∉ M) :
    ∃ c, most_common_letter W M = Except.ok c ∧ c ∈ W.flatten ∧ c ∉ M ∧
      (∀ d ∈ W.flatten, d ∉ M → W.flatten.count d ≤ W.flatten.count c) ∧
      (∀ d ∈ W.flatten, d ∉ M → W.flatten.count d = W.flatten.count c →
        W.flatten.indexOf c ≤ W.flatten.indexOf d) := by
  obtain ⟨d0, hd0, hd0M⟩ := hex
  have hne : unrevealed_keys W M ≠ [] := by
    intro h
    have hd : d0 ∈ unrevealed_keys W M := (mem_unrevealed_keys _ _ _).mpr ⟨hd0, hd0M⟩
    rw [h] at hd
    cases hd
  obtain ⟨c, hc⟩ := most_common_letter_ok_of_ne hne
  have hfm : firstMaxBy (fun x => W.flatten.count x) (unrevealed_keys W M) = some c := by
    rw [most_common_letter_eq] at hc
    cases hf : firstMaxBy (fun x => W.flatten.count x) (unrevealed_keys W M) with
    | none =>
      rw [hf] at hc
      cases hc
    | some e =>
      rw [hf] at hc
      cases hc
      rfl
  have hcmem := (mem_unrevealed_keys W M c).mp (firstMaxBy_mem hfm)
  refine ⟨c, hc, hcmem.1, hcmem.2, ?_, ?_⟩
  · intro d hd hdM
    exact firstMaxBy_max hfm d ((mem_unrevealed_keys W M d).mpr ⟨hd, hdM⟩)
  · intro d hd hdM hcnt
    exact firstMaxBy_tie_indexOf W.flatten _ _ c hfm d
      ((mem_unrevealed_keys W M d).mpr ⟨hd, hdM⟩) hcnt

theorem claim_C2_witness :
    (([['a','b'],['b']] : List Word) ≠ [] ∧
      ∃ d ∈ ([['a','b'],['b']] : List Word).flatten, d ∉ ([] : List Char)) ∧
    (∃ c, most_common_letter [['a','b'],['b']] [] = Except.ok c ∧
      c ∈ ([['a','b'],['b']] : List Word).flatten ∧ c ∉ ([] : List Char) ∧
      (∀ d ∈ ([['a','b'],['b']] : List Word).flatten, d ∉ ([] : List Char) →
        ([['a','b'],['b']] : List Word).flatten.count d
          ≤ ([['a','b'],['b']] : List Word).flatten.count c) ∧
      (∀ d ∈ ([['a','b'],['b']] : List Word).flatten, d ∉ ([] : List Char) →
        ([['a','b'],['b']] : List Word).flatten.count d
          = ([['a','b'],['b']] : List Word).flatten.count c →
        ([['a','b'],['b']] : List Word).flatten.indexOf c
          ≤ ([['a','b'],['b']] : List Word).flatten.indexOf d)) :=
  ⟨⟨by decide, by decide⟩, claim_C2 [['a','b'],['b']] [] (by decide) (by decide)⟩

/-- C3: the terminal check of `play_hangman` tests the failure condition
first: whenever the wrong-guess counter has reached
`len(HANGMEN) - 1 = 6`, the outcome is Failed and not Solved, even when
the candidate set has exactly one element at the same time; a turn whose
resulting state satisfies the failure condition makes the loop report
Failed. -/
theorem claim_C3 (st : GameState) (word : Word) (fuel : Nat) (stp : GameState)
    (h6 : HANGMEN.length - 1 ≤ st.wrong_guesses) (h1 : st.words.length = 1) :
    HANGMEN.length - 1 = 6 ∧ check_game_over st = Outcome.Failed ∧
    check_game_over st ≠ Outcome.Solved ∧
    (game_step word stp = Except.ok st →
      run_game word (fuel + 1) stp = Except.ok (some (Outcome.Failed, st))) := by
  have hF : check_game_over st = Outcome.Failed := by
    rw [check_game_over, if_pos h6]
  refine ⟨rfl, hF, ?_, ?_⟩
  · rw [hF]
    intro h
    cases h
  · intro hs
    exact run_game_eq_failed word fuel stp st hs hF

theorem claim_C3_witness :
    HANGMEN.length - 1 = 6 ∧
    check_game_over (GameState.mk [['b']] ['_'] 6) = Outcome.Failed ∧
    check_game_over (GameState.mk [['b']] ['_'] 6) ≠ Outcome.Solved ∧
    run_game ['c'] (0 + 1) (GameState.mk [['a'],['b']] ['_'] 5)
      = Except.ok (some (Outcome.Failed, GameState.mk [['b']] ['_'] 6)) := by
  have h := claim_C3 (GameState.mk [['b']] ['_'] 6) ['c'] 0
    (GameState.mk [['a'],['b']] ['_'] 5) (by decide) (by decide)
  exact ⟨h.1, h.2.1, h.2.2.1, h.2.2.2 (by decide)⟩

/-- C7 as written is false of the code: when no unrevealed letter remains,
`most_common_letter` does fail, but with the generic `IndexError` that
`[0]` raises on the empty `most_common()` list — the function body
(`return counts.most_common()[0][0]`) contains no explicit guard and no
distinct `ExhaustedError`. -/
theorem claim_C7_counterexample :
    most_common_letter [['a']] ['a'] = Except.error PyErr.IndexError ∧
    most_common_letter [['a']] ['a'] ≠ Except.error PyErr.ExhaustedError :=
  ⟨by decide, by decide⟩

/-- C7 amended: when (and only when) no unrevealed letter remains,
`most_common_letter` fails, and the failure is the unguarded `IndexError`
from indexing the empty `most_common()` list — surfaced to the caller
rather than guessing arbitrarily — not a distinct, explicitly guarded
`ExhaustedError`. -/
theorem claim_C7_amended (W : List Word) (M : List Char) :
    (most_common_letter W M = Except.error PyErr.IndexError ↔
      ∀ d ∈ W.flatten, d ∈ M) ∧
    most_common_letter W M ≠ Except.error PyErr.ExhaustedError := by
  constructor
  · rw [most_common_letter_error_iff]
    constructor
    · intro h d hd
      by_contra hdM
      have hmem : d ∈ unrevealed_keys W M := (mem_unrevealed_keys W M d).mpr ⟨hd, hdM⟩
      rw [h] at hmem
      cases hmem
    · intro h
      cases hk : unrevealed_keys W M with
      | nil => rfl
      | cons x xs =>
        exfalso
        have hx : x ∈ unrevealed_keys W M := by
          rw [hk]
          exact List.mem_cons_self _ _
        obtain ⟨h1, h2⟩ := (mem_unrevealed_keys W M x).mp hx
        exact h2 (h x h1)
  · intro h
    rw [most_common_letter_eq] at h
    cases hf : firstMaxBy (fun c => W.flatten.count c) (unrevealed_keys W M) with
    | none =>
      rw [hf] at h
      exact absurd h (by decide)
    | some d =>
      rw [hf] at h
      cases h

theorem claim_C7_amended_witness :
    (∀ d ∈ ([['a']] : List Word).flatten, d ∈ (['a'] : List Char)) ∧
    most_common_letter [['a']] ['a'] = Except.error PyErr.IndexError := by
  have h := claim_C7_amended [['a']] ['a']
  exact ⟨by decide, h.1.mpr (by decide)⟩

/-- C6 as written quantifies over every finite vocabulary, and that is
false of the code: with the empty word as the secret, or with a duplicated
vocabulary entry, the loop raises `IndexError` (an empty frequency map
after the pops) instead of ever reaching Solved or Failed. -/
theorem claim_C6_counterexample :
    run_game [] (26 + 6) (init_state [] [[]]) = Except.error PyErr.IndexError ∧
    run_game ['a'] (26 + 6) (init_state ['a'] [['a'],['a']])
      = Except.error PyErr.IndexError :=
  ⟨by decide, by decide⟩

/-- C6 amended: for every vocabulary of distinct, nonempty, lowercase
(a .. z) words containing the secret, the truthfully played loop reaches
Solved or Failed within 26 + 6 iterations of fuel. -/
theorem claim_C6_amended (V : List Word) (word : Word) (hnd : V.Nodup)
    (hmem : word ∈ V) (hword : word ≠ [])
    (hlow : ∀ v ∈ V, ∀ c ∈ v, c ∈ LOWERCASE) :
    ∃ o st, run_game word (26 + 6) (init_state word V) = Except.ok (some (o, st)) ∧
      o ≠ Outcome.Playing := by
  have hinv := game_inv_init V word hnd hmem hlow
  have hb : turns_left word [] (init_state word V).wrong_guesses ≤ 26 + 6 := by
    show unrevealed_count word [] + (6 - 0) ≤ 26 + 6
    have h26 := unrevealed_count_le_26 word (hlow word hmem)
    omega
  have hentry : check_game_over (init_state word V) = Outcome.Playing ∨
      ∃ d ∈ word, d ∉ ([] : List Char) := by
    obtain ⟨d, hd⟩ := List.exists_mem_of_ne_nil word hword
    exact Or.inr ⟨d, hd, List.not_mem_nil d⟩
  exact run_game_terminates word (26 + 6) [] (init_state word V) hinv hb hentry

theorem claim_C6_amended_witness :
    (([['a','b'],['c','b']] : List Word).Nodup ∧
      (['a','b'] : Word) ∈ ([['a','b'],['c','b']] : List Word) ∧
      (['a','b'] : Word) ≠ [] ∧
      ∀ v ∈ ([['a','b'],['c','b']] : List Word), ∀ c ∈ v, c ∈ LOWERCASE) ∧
    (∃ o st, run_game ['a','b'] (26 + 6) (init_state ['a','b'] [['a','b'],['c','b']])
        = Except.ok (some (o, st)) ∧ o ≠ Outcome.Playing) := by
  refine ⟨⟨by decide, by decide, by decide, by decide⟩, ?_⟩
  exact claim_C6_amended [['a','b'],['c','b']] ['a','b'] (by decide) (by decide)
    (by decide) (by decide)
